import Mathlib

/-
# Verification of the juju change-log watcher (`state/watcher/watcher.go`)

This file gives a shallow embedding of the core of the change-log watcher:
the subscription registry, the synchronization pass (`Watcher.sync`), the
delivery engine (`Watcher.flush`) and the request handlers
(`Watcher.handle` for `reqWatch`, `reqWatchMulti`, `reqUnwatch`), together
with the error classification performed on iterator shutdown
(`Watcher.sync` / `Watcher.loop`).

Document ids are modelled as `Nat` (the Go code uses an arbitrary
comparable `interface{}` value; nothing in the verified properties depends
on the id type).  Output channels are identified by a `Nat` token: the
model records *which* channel an event is sent to, and the delivery engine
produces the list of (channel, Change) sends in order.  Go's `panic` on a
caller programming error is modelled as an error result.
-/

namespace JujuWatcher

/-- Identifier of a subscriber output channel (`chan<- Change` in Go). -/
abbrev Chan := Nat

/-- Document id (`interface{}` in Go; any comparable value). -/
abbrev DocId := Nat

/-- The `watchKey` of a subscription: `id = none` when watching a whole collection. -/
structure WatchKey where
  c : String
  id : Option DocId
deriving DecidableEq, Repr

/-- A fully determined document key `(collection, id)`, as occurs in a
change-log delta and in every queued event. -/
structure DocKey where
  c : String
  id : DocId
deriving DecidableEq, Repr

/-- The document-level `watchKey` of a `DocKey`. -/
def DocKey.toWatchKey (k : DocKey) : WatchKey := ⟨k.c, some k.id⟩

/-- The collection-wide `watchKey` for collection `c`. -/
def collKey (c : String) : WatchKey := ⟨c, none⟩

/-- Model of `watchKey.match`: `k` (which may be collection-wide) matches the
document key `k1`. -/
def watchKeyMatch (k : WatchKey) (k1 : DocKey) : Bool :=
  if k.c ≠ k1.c then false
  else if k.id = none then true
  else k.id = some k1.id

/-- The `watchInfo` record: one registered subscription entry. -/
structure WatchInfo where
  ch : Chan
  revno : Int
  filter : Option (DocId → Bool)

instance : Inhabited WatchInfo := ⟨⟨0, 0, none⟩⟩

/-- The `event` record: a queued pending delivery.  `ch = none` models the Go code
setting `e.ch = nil` when an event is purged by an unwatch request. -/
structure Event where
  ch : Option Chan
  key : DocKey
  revno : Int

instance : Inhabited Event := ⟨⟨none, ⟨"", 0⟩, 0⟩⟩

/-- The `Change` record: the payload delivered to subscribers. -/
structure Change where
  C : String
  Id : DocId
  Revno : Int
deriving DecidableEq, Repr

/-- The registry `watches map[watchKey][]watchInfo`; a missing key is the
empty list, as for a Go map. -/
abbrev Registry := WatchKey → List WatchInfo

/-- The watcher state acted on by requests and flush: the registry and the
two pending-event queues. -/
structure WatcherState where
  watches : Registry
  syncEvents : List Event
  requestEvents : List Event

/-- The state threaded through one sync pass: the registry, the sync
queue, and the per-pass `seen` set. -/
structure SyncState where
  watches : Registry
  syncEvents : List Event
  seen : List DocKey

/-- One per-collection delta batch inside a change-log entry: the
collection name, the document ids (`"d"`) and the revnos (`"r"`).
A revno of `none` models a log value that fails the `int64` cast. -/
structure DeltaBatch where
  name : String
  d : List DocId
  r : List (Option Int)

/-- A change-log entry, as the per-collection batches following `_id`. -/
abbrev LogEntry := List DeltaBatch

/-- A candidate change examined by the sync pass. -/
abbrev Cand := String × DocId × Option Int

/-- The document key of a candidate. -/
def candKey (cand : Cand) : DocKey := ⟨cand.1, cand.2.1⟩

/-- Revno normalization: `if revno < 0 { revno = -1 }`. -/
def normRev (r : Int) : Int := if r < 0 then -1 else r

/-- The per-document delivery condition of `Watcher.sync`:
`revno > info.revno || (revno < 0 && info.revno >= 0)`. -/
def condDeliver (revno old : Int) : Prop := old < revno ∨ (revno < 0 ∧ 0 ≤ old)

instance (revno old : Int) : Decidable (condDeliver revno old) := by
  unfold condDeliver; infer_instance

/-- The per-document watch loop of `Watcher.sync` (lines 609–620): walk
the entries registered on the exact key; for each entry satisfying the
delivery condition, update its stored revno and queue an event.  Returns
the updated entry list and the queued events, in registration order. -/
def procDocWatches (key : DocKey) (revno : Int) :
    List WatchInfo → List WatchInfo × List Event
  | [] => ([], [])
  | info :: rest =>
    let tail := procDocWatches key revno rest
    if condDeliver revno info.revno then
      ({ info with revno := revno } :: tail.1,
        Event.mk (some info.ch) key revno :: tail.2)
    else
      (info :: tail.1, tail.2)

/-- The per-collection watch loop of `Watcher.sync` (lines 597–607):
queue an event for every collection-wide entry whose filter is absent or
accepts the document id. -/
def procCollWatches (key : DocKey) (revno : Int) : List WatchInfo → List Event
  | [] => []
  | info :: rest =>
    let tail := procCollWatches key revno rest
    match info.filter with
    | some f => if f key.id then Event.mk (some info.ch) key revno :: tail else tail
    | none => Event.mk (some info.ch) key revno :: tail

/-- Processing of one candidate change `(collection, id, revno)` by the
sync pass (`Watcher.sync`, lines 582–621): skip keys already seen this
pass, mark the key seen, skip revnos that are not `int64`, normalize,
then queue collection-wide and per-document notifications. -/
def syncOne (st : SyncState) (cand : Cand) : SyncState :=
  let key : DocKey := candKey cand
  if key ∈ st.seen then st
  else
    let seen' := key :: st.seen
    match cand.2.2 with
    | none => { st with seen := seen' }
    | some r0 =>
      let revno := normRev r0
      let collEvts := procCollWatches key revno (st.watches (collKey cand.1))
      let pd := procDocWatches key revno (st.watches key.toWatchKey)
      { watches := fun k => if k = key.toWatchKey then pd.1 else st.watches k,
        syncEvents := st.syncEvents ++ collEvts ++ pd.2,
        seen := seen' }

/-- Processing of one delta batch (`Watcher.sync`, lines 578–621): a batch
with empty ids or mismatched lengths is logged and skipped; otherwise the
rows are walked from the last index to the first. -/
def syncBatch (st : SyncState) (b : DeltaBatch) : SyncState :=
  if b.d.length = 0 ∨ b.d.length ≠ b.r.length then st
  else ((b.d.zip b.r).reverse).foldl
    (fun s p => syncOne s (b.name, p.1, p.2)) st

/-- Processing of one change-log entry: each per-collection batch in
order. -/
def syncEntry (st : SyncState) (e : LogEntry) : SyncState :=
  e.foldl syncBatch st

/-- One sync pass over the new log entries, which the iterator yields in
reverse insertion order (newest first). -/
def syncPass (st : SyncState) (entries : List LogEntry) : SyncState :=
  entries.foldl syncEntry st

/-- The candidate stream of one delta batch, in the order the sync pass
examines it (last row first; malformed batches contribute nothing). -/
def batchCands (b : DeltaBatch) : List Cand :=
  if b.d.length = 0 ∨ b.d.length ≠ b.r.length then []
  else ((b.d.zip b.r).reverse).map (fun p => (b.name, p.1, p.2))

/-- The candidate stream of one log entry. -/
def entryCands (e : LogEntry) : List Cand :=
  e.foldl (fun acc b => acc ++ batchCands b) []

/-- The candidate stream of a whole pass. -/
def candList (entries : List LogEntry) : List Cand :=
  entries.foldl (fun acc e => acc ++ entryCands e) []

/-- The de-duplication performed by the per-pass `seen` set: of the
candidates whose key is not yet seen, only the first occurrence of each
key survives. -/
def dedupCands (seen : List DocKey) : List Cand → List Cand
  | [] => []
  | cand :: rest =>
    if candKey cand ∈ seen then dedupCands seen rest
    else cand :: dedupCands (candKey cand :: seen) rest

/-- The send performed for one queued event: nothing when the event was
purged (`ch = nil`), otherwise the `Change` sent to the channel. -/
def sendOf (e : Event) : Option (Chan × Change) :=
  e.ch.map (fun c => (c, ⟨e.key.c, e.key.id, e.revno⟩))

/-- The first loop of `Watcher.flush`: the sync queue is walked from
index `i - 1` down to index `0`. -/
def flushSyncLoop (evs : List Event) : Nat → List (Chan × Change)
  | 0 => []
  | i + 1 => (sendOf (evs.getD i default)).toList ++ flushSyncLoop evs i

/-- The second loop of `Watcher.flush`: the request queue is walked from
its first index to its last. -/
def flushReqLoop : List Event → List (Chan × Change)
  | [] => []
  | e :: rest => (sendOf e).toList ++ flushReqLoop rest

/-- All sends performed by one `Watcher.flush`: the sync queue from its
last index to its first, then the request queue in order. -/
def flushSends (st : WatcherState) : List (Chan × Change) :=
  flushSyncLoop st.syncEvents st.syncEvents.length ++ flushReqLoop st.requestEvents

/-- Model of `Watcher.flush`: perform the sends and clear both queues. -/
def flush (st : WatcherState) : WatcherState × List (Chan × Change) :=
  ({ st with syncEvents := [], requestEvents := [] }, flushSends st)

/-- Model of `Watcher.handle` for `reqWatch`: re-adding a channel already
registered for the key is a programming error (a panic in Go, modelled as
`some` message); otherwise the entry is appended to the key's list. -/
def reqWatchHandle (w : Registry) (key : WatchKey) (info : WatchInfo) :
    Registry × Option String :=
  if (w key).any (fun i => i.ch = info.ch) then
    (w, some "tried to re-add channel")
  else
    ((fun k => if k = key then w key ++ [info] else w k), none)

/-- Model of `Watcher.handle` for `reqWatchMulti`: first check every id for an
existing registration of the same channel — on a hit, report the error
and change nothing; otherwise append a fresh entry (revno `-2`, no
filter) for every id. -/
def reqWatchMultiHandle (w : Registry) (collection : String)
    (ids : List DocId) (ch : Chan) : Registry × Option String :=
  if ids.any (fun id =>
      (w ⟨collection, some id⟩).any (fun info => info.ch = ch)) then
    (w, some "tried to re-add channel")
  else
    (ids.foldl (fun acc id =>
      fun k => if k = ⟨collection, some id⟩
        then acc ⟨collection, some id⟩ ++ [⟨ch, -2, none⟩]
        else acc k) w, none)

/-- The swap-removal of `Watcher.handle` for `reqUnwatch`: replace the
first entry for the channel with the last entry of the list and truncate;
`none` when no entry matches (a panic in Go). -/
def swapRemove (ch : Chan) (infos : List WatchInfo) : Option (List WatchInfo) :=
  match infos.findIdx? (fun i => i.ch = ch) with
  | none => none
  | some i => some ((infos.set i (infos.getLastD default)).dropLast)

/-- The purge of `Watcher.handle` for `reqUnwatch`: every queued event
matching the removed key and channel has its channel set to `nil`. -/
def purgeEvents (key : WatchKey) (ch : Chan) (evs : List Event) : List Event :=
  evs.map (fun e =>
    if watchKeyMatch key e.key ∧ e.ch = some ch then { e with ch := none } else e)

/-- Model of `Watcher.handle` for `reqUnwatch`: remove the entry (a panic in Go
when absent, modelled as `none`), then purge both pending queues. -/
def reqUnwatchHandle (st : WatcherState) (key : WatchKey) (ch : Chan) :
    Option WatcherState :=
  match swapRemove ch (st.watches key) with
  | none => none
  | some infos => some
      { watches := fun k => if k = key then infos else st.watches k,
        syncEvents := purgeEvents key ch st.syncEvents,
        requestEvents := purgeEvents key ch st.requestEvents }

/-- One sync pass followed by its flush, starting from empty queues:
returns the updated registry and the sends performed. -/
def runPass (w : Registry) (entries : List LogEntry) :
    Registry × List (Chan × Change) :=
  ((syncPass ⟨w, [], []⟩ entries).watches,
    flushSends ⟨(syncPass ⟨w, [], []⟩ entries).watches,
      (syncPass ⟨w, [], []⟩ entries).syncEvents, []⟩)

/-- A sequence of sync passes, each over its own batch of new log
entries, and the concatenation of all sends in delivery order. -/
def runPasses (w : Registry) : List (List LogEntry) → List (Chan × Change)
  | [] => []
  | p :: ps =>
    let r := runPass w p
    r.2 ++ runPasses r.1 ps

/-- The changes delivered to channel `ch`, in order. -/
def sendsTo (ch : Chan) (sends : List (Chan × Change)) : List Change :=
  sends.filterMap (fun s => if s.1 = ch then some s.2 else none)

/-- The revnos delivered to channel `ch` for document key `K`, in
order. -/
def deliveredFor (ch : Chan) (K : DocKey) (sends : List (Chan × Change)) :
    List Int :=
  sends.filterMap (fun s =>
    if s.1 = ch ∧ s.2.C = K.c ∧ s.2.Id = K.id then some s.2.Revno else none)

/-- The revnos of the events queued for channel `ch` and key `K`, in
queue order. -/
def eventsFor (ch : Chan) (K : DocKey) (evs : List Event) : List Int :=
  evs.filterMap (fun e =>
    if e.ch = some ch ∧ e.key = K then some e.revno else none)

/-- Substring test, modelling Go's `strings.Contains`. -/
def strContainsSub (hay needle : String) : Bool :=
  hay.toList.tails.any (fun t => needle.toList.isPrefixOf t)

/-- The outcome of closing the change-log iterator at the end of
`Watcher.sync`. -/
inductive IterCloseResult
  | ok
  | queryError (code : Nat) (message : String)
  | otherError (message : String)
deriving DecidableEq, Repr

/-- The error classification of `Watcher.sync` (lines 624–634): a query
error with code 136 or a message containing `CappedPositionLost` becomes
the distinguished `cappedPositionLost` cause; anything else is a generic
iteration error. -/
inductive SyncErr
  | cappedPositionLost
  | iterErr (message : String)
deriving DecidableEq, Repr

/-- The error, if any, returned by `Watcher.sync` for a given iterator
close outcome. -/
def syncCloseErr : IterCloseResult → Option SyncErr
  | .ok => none
  | .queryError code msg =>
    if code = 136 ∨ strContainsSub msg "CappedPositionLost" then
      some .cappedPositionLost
    else some (.iterErr msg)
  | .otherError msg => some (.iterErr msg)

/-- The terminal cause with which `Watcher.loop` exits when `sync`
fails (lines 372–381): the capped-position-lost cause becomes the
restart-the-whole-agent error; anything else propagates as a generic
error. -/
inductive WatcherExit
  | errRestartAgent
  | iterationError (message : String)
deriving DecidableEq, Repr

/-- Model of `Watcher.loop`'s translation of a failed sync into its exit cause. -/
def loopExitOfSyncErr : SyncErr → WatcherExit
  | .cappedPositionLost => .errRestartAgent
  | .iterErr m => .iterationError m

/-- The exit cause of `Watcher.loop` as a function of how the iterator
close behaves, when iteration reaches the close. -/
def loopExitOfClose (r : IterCloseResult) : Option WatcherExit :=
  (syncCloseErr r).map loopExitOfSyncErr

/- ## Definitions supporting the statements and proofs -/

/-- A registry holding exactly one collection-wide watch entry with no
filter (as registered by `WatchCollection`). -/
def singleCollWatch (c : String) (ch : Chan) (v : Int) : Registry :=
  fun k => if k = collKey c then [⟨ch, v, none⟩] else []

/-- The event an unfiltered collection-wide watch receives for a
candidate. -/
def collEventOf (ch : Chan) (cand : Cand) : Event :=
  Event.mk (some ch) (candKey cand) (normRev (cand.2.2.getD 0))

/-- The registry holds, at the document key of `K`, exactly one entry for
channel `ch`, with stored revno `v` (any filter). -/
def docEntryShape (w : Registry) (K : DocKey) (ch : Chan) (v : Int) : Prop :=
  ∃ pre f post, w K.toWatchKey = pre ++ WatchInfo.mk ch v f :: post ∧
    (∀ i ∈ pre, i.ch ≠ ch) ∧ (∀ i ∈ post, i.ch ≠ ch)

/-- No collection-wide entry for collection `c` uses channel `ch`. -/
def collClean (w : Registry) (c : String) (ch : Chan) : Prop :=
  ∀ i ∈ w (collKey c), i.ch ≠ ch

/-- Invariant of the sync fold, tracking one focused document watch on
key `K`, channel `ch`, whose stored revno was `v` at pass start. -/
def passInv (K : DocKey) (ch : Chan) (v : Int) (st : SyncState) : Prop :=
  collClean st.watches K.c ch ∧
  ((docEntryShape st.watches K ch v ∧ eventsFor ch K st.syncEvents = [])
    ∨ (K ∈ st.seen ∧ ∃ r, (r = -1 ∨ 0 ≤ r) ∧ condDeliver r v ∧
        docEntryShape st.watches K ch r ∧ eventsFor ch K st.syncEvents = [r]))

/-- A registry with one document-level watch on document `0` of
collection `"m"` for channel `0`, as registered by `Watch` (stored revno
`-2`, no filter). -/
def wDoc : Registry :=
  fun k => if k = (⟨"m", some 0⟩ : WatchKey) then [⟨0, -2, none⟩] else []

/-- The watched document key of `wDoc`. -/
def K0 : DocKey := ⟨"m", 0⟩

/-- Three passes whose log entries set document 0's revno to `3`, then
`-5` (a deletion), then `2` (the document reappears). -/
def cexPasses : List (List LogEntry) :=
  [[[⟨"m", [0], [some 3]⟩]],
   [[⟨"m", [0], [some (-5)]⟩]],
   [[⟨"m", [0], [some 2]⟩]]]

/-- Three passes: revno `3`, then deletion `-5`, then deletion `-7`. -/
def delPasses : List (List LogEntry) :=
  [[[⟨"m", [0], [some 3]⟩]],
   [[⟨"m", [0], [some (-5)]⟩]],
   [[⟨"m", [0], [some (-7)]⟩]]]

/-- The delivery discipline stated by the spec for a document-level
watch: the revno sequence is non-decreasing, except that a `-1` may
appear after a non-negative value, and no event follows a delivered
`-1`. -/
def specC1Monotone (ds : List Int) : Prop :=
  List.Chain' (fun a b => a ≤ b ∨ (b = -1 ∧ 0 ≤ a)) ds ∧
  ∀ i : Fin ds.length, ds.get i = -1 → i.1 + 1 = ds.length

/-- The registry produced by a first `WatchMulti("c", [0, 1], 5)` on an
empty registry. -/
def w1 : Registry := (reqWatchMultiHandle (fun _ => []) "c" [0, 1] 5).1

/- ## Basic characterizations of the sync loops -/

/-- The per-document loop delivers to an entry and bumps its stored revno
exactly when the delivery condition holds. -/
theorem procDocWatches_eq (key : DocKey) (revno : Int) (infos : List WatchInfo) :
    procDocWatches key revno infos =
      (infos.map (fun info =>
          if condDeliver revno info.revno then { info with revno := revno } else info),
        infos.filterMap (fun info =>
          if condDeliver revno info.revno then
            some (Event.mk (some info.ch) key revno)
          else none)) := by
  induction infos with
  | nil => rfl
  | cons info rest ih =>
    simp only [procDocWatches, ih, List.map_cons, List.filterMap_cons]
    by_cases h : condDeliver revno info.revno <;> simp [h]

/-- The collection-wide loop queues an event for an entry exactly when the
entry has no filter or its filter accepts the id. -/
theorem procCollWatches_eq (key : DocKey) (revno : Int) (infos : List WatchInfo) :
    procCollWatches key revno infos =
      infos.filterMap (fun info =>
        match info.filter with
        | some f =>
          if f key.id then some (Event.mk (some info.ch) key revno) else none
        | none => some (Event.mk (some info.ch) key revno)) := by
  induction infos with
  | nil => rfl
  | cons info rest ih =>
    simp only [procCollWatches, ih, List.filterMap_cons]
    cases hf : info.filter with
    | none => simp
    | some f => by_cases hfk : f key.id <;> simp [hfk]

theorem mem_procCollWatches {key : DocKey} {revno : Int} {infos : List WatchInfo}
    {e : Event} (he : e ∈ procCollWatches key revno infos) :
    e.key = key ∧ ∃ i ∈ infos, e.ch = some i.ch := by
  rw [procCollWatches_eq] at he
  rcases List.mem_filterMap.mp he with ⟨i, hi, hfi⟩
  cases hf : i.filter with
  | none =>
    rw [hf] at hfi
    cases hfi
    exact ⟨rfl, i, hi, rfl⟩
  | some f =>
    rw [hf] at hfi
    dsimp only at hfi
    by_cases hfk : f key.id
    · rw [if_pos hfk] at hfi; cases hfi; exact ⟨rfl, i, hi, rfl⟩
    · rw [if_neg hfk] at hfi; cases hfi

theorem mem_procDocWatches_snd {key : DocKey} {revno : Int} {infos : List WatchInfo}
    {e : Event} (he : e ∈ (procDocWatches key revno infos).2) :
    e.key = key ∧ ∃ i ∈ infos, e.ch = some i.ch := by
  rw [procDocWatches_eq] at he
  rcases List.mem_filterMap.mp he with ⟨i, hi, hfi⟩
  by_cases hc : condDeliver revno i.revno
  · rw [if_pos hc] at hfi; cases hfi; exact ⟨rfl, i, hi, rfl⟩
  · rw [if_neg hc] at hfi; cases hfi

/- ## `eventsFor` facts -/

theorem eventsFor_append (ch : Chan) (K : DocKey) (a b : List Event) :
    eventsFor ch K (a ++ b) = eventsFor ch K a ++ eventsFor ch K b :=
  List.filterMap_append a b _

theorem eventsFor_eq_nil (ch : Chan) (K : DocKey) (evs : List Event)
    (h : ∀ e ∈ evs, e.key ≠ K ∨ e.ch ≠ some ch) :
    eventsFor ch K evs = [] := by
  apply List.filterMap_eq_nil_iff.mpr
  intro e he
  rcases h e he with hk | hc
  · simp [hk]
  · simp [hc]

theorem eventsFor_procColl_nil {ch : Chan} {K key : DocKey} {revno : Int}
    {infos : List WatchInfo} (h : key ≠ K ∨ ∀ i ∈ infos, i.ch ≠ ch) :
    eventsFor ch K (procCollWatches key revno infos) = [] := by
  apply eventsFor_eq_nil
  intro e he
  obtain ⟨hek, i, hi, hec⟩ := mem_procCollWatches he
  rcases h with hk | hch
  · exact Or.inl (by rw [hek]; exact hk)
  · refine Or.inr ?_
    rw [hec]
    intro hcon
    exact hch i hi (by injection hcon)

theorem eventsFor_procDoc_nil {ch : Chan} {K key : DocKey} {revno : Int}
    {infos : List WatchInfo} (h : key ≠ K ∨ ∀ i ∈ infos, i.ch ≠ ch) :
    eventsFor ch K (procDocWatches key revno infos).2 = [] := by
  apply eventsFor_eq_nil
  intro e he
  obtain ⟨hek, i, hi, hec⟩ := mem_procDocWatches_snd he
  rcases h with hk | hch
  · exact Or.inl (by rw [hek]; exact hk)
  · refine Or.inr ?_
    rw [hec]
    intro hcon
    exact hch i hi (by injection hcon)

/- ## Flush facts -/

theorem flushSyncLoop_eq (evs : List Event) :
    ∀ n, n ≤ evs.length →
      flushSyncLoop evs n = ((evs.take n).reverse).filterMap sendOf := by
  intro n
  induction n with
  | zero => intro _; simp [flushSyncLoop]
  | succ n ih =>
    intro h
    have hn : n < evs.length := h
    rw [flushSyncLoop, ih (Nat.le_of_lt hn), List.getD_eq_getElem evs default hn,
      List.take_succ, List.getElem?_eq_getElem hn]
    simp only [Option.toList_some, List.reverse_append, List.reverse_cons,
      List.reverse_nil, List.nil_append, List.filterMap_cons]
    cases hs : sendOf evs[n] <;> simp [hs]

theorem flushReqLoop_eq (evs : List Event) :
    flushReqLoop evs = evs.filterMap sendOf := by
  induction evs with
  | nil => rfl
  | cons e rest ih =>
    rw [flushReqLoop, ih, List.filterMap_cons]
    cases sendOf e <;> simp

/-- Theorem: `Watcher.flush` sends the sync queue in reverse queue order, followed
by the request queue in queue order. -/
theorem flushSends_eq (st : WatcherState) :
    flushSends st = (st.syncEvents.reverse).filterMap sendOf
      ++ st.requestEvents.filterMap sendOf := by
  unfold flushSends
  rw [flushSyncLoop_eq st.syncEvents st.syncEvents.length (Nat.le_refl _),
    List.take_length st.syncEvents, flushReqLoop_eq]

theorem deliveredFor_filterMap_sendOf (ch : Chan) (K : DocKey) (evs : List Event) :
    deliveredFor ch K (evs.filterMap sendOf) = eventsFor ch K evs := by
  obtain ⟨Kc, Kid⟩ := K
  unfold deliveredFor eventsFor
  rw [List.filterMap_filterMap]
  have hfun : (fun e => (sendOf e).bind (fun s =>
        if s.1 = ch ∧ s.2.C = Kc ∧ s.2.Id = Kid then some s.2.Revno else none))
      = (fun e =>
        if e.ch = some ch ∧ e.key = (⟨Kc, Kid⟩ : DocKey) then some e.revno else none) := by
    funext e
    obtain ⟨ec, ⟨ekc, ekid⟩, er⟩ := e
    cases ec with
    | none => rfl
    | some c =>
      simp only [sendOf, Option.map_some', Option.some_bind]
      by_cases hc : c = ch
      · subst hc
        by_cases hk : ekc = Kc ∧ ekid = Kid
        · obtain ⟨h1, h2⟩ := hk
          subst h1; subst h2
          simp
        · rw [if_neg (by simpa using fun h1 h2 => hk ⟨h1, h2⟩),
            if_neg (by simpa using fun h1 h2 => hk ⟨h1, h2⟩)]
      · rw [if_neg (by simpa using fun h => absurd h hc),
          if_neg (by simpa using fun h => absurd h hc)]
  rw [hfun]

theorem deliveredFor_append (ch : Chan) (K : DocKey) (a b : List (Chan × Change)) :
    deliveredFor ch K (a ++ b) = deliveredFor ch K a ++ deliveredFor ch K b :=
  List.filterMap_append a b _

/-- The sends of a pass, restricted to one channel and one document key,
are the queued events for that pair in reverse queue order. -/
theorem deliveredFor_flushSends (ch : Chan) (K : DocKey) (w : Registry)
    (evs : List Event) :
    deliveredFor ch K (flushSends ⟨w, evs, []⟩)
      = (eventsFor ch K evs).reverse := by
  rw [flushSends_eq]
  simp only [List.filterMap_nil, List.append_nil]
  rw [List.filterMap_reverse]
  show deliveredFor ch K ((evs.filterMap sendOf).reverse) = _
  unfold deliveredFor
  rw [List.filterMap_reverse]
  congr 1
  exact deliveredFor_filterMap_sendOf ch K evs

/- ## The candidate stream of a pass -/

theorem foldl_append_acc {β : Type _} (g : β → List Cand) :
    ∀ (l : List β) (acc : List Cand),
      l.foldl (fun a b => a ++ g b) acc = acc ++ l.foldl (fun a b => a ++ g b) [] := by
  intro l
  induction l with
  | nil => intro acc; simp
  | cons b t ih =>
    intro acc
    rw [List.foldl_cons, List.foldl_cons, ih (acc ++ g b), ih ([] ++ g b)]
    simp

theorem syncBatch_eq (st : SyncState) (b : DeltaBatch) :
    syncBatch st b = (batchCands b).foldl syncOne st := by
  unfold syncBatch batchCands
  by_cases h : (b.d.length = 0 ∨ b.d.length ≠ b.r.length)
  · rw [if_pos h, if_pos h]
    rfl
  · rw [if_neg h, if_neg h, List.foldl_map]

theorem syncEntry_eq : ∀ (e : LogEntry) (st : SyncState),
    syncEntry st e = (entryCands e).foldl syncOne st := by
  intro e
  induction e with
  | nil => intro st; rfl
  | cons b bs ih =>
    intro st
    have ih' : ∀ s : SyncState,
        List.foldl syncBatch s bs = (entryCands bs).foldl syncOne s :=
      fun s => ih s
    show List.foldl syncBatch (syncBatch st b) bs = _
    rw [ih' (syncBatch st b), syncBatch_eq]
    show _ = (List.foldl (fun acc x => acc ++ batchCands x) [] (b :: bs)).foldl
      syncOne st
    rw [List.foldl_cons, List.nil_append,
      foldl_append_acc batchCands bs (batchCands b), List.foldl_append]
    rfl

theorem syncPass_eq : ∀ (entries : List LogEntry) (st : SyncState),
    syncPass st entries = (candList entries).foldl syncOne st := by
  intro entries
  induction entries with
  | nil => intro st; rfl
  | cons e es ih =>
    intro st
    have ih' : ∀ s : SyncState,
        List.foldl syncEntry s es = (candList es).foldl syncOne s :=
      fun s => ih s
    show List.foldl syncEntry (syncEntry st e) es = _
    rw [ih' (syncEntry st e), syncEntry_eq]
    show _ = (List.foldl (fun acc x => acc ++ entryCands x) [] (e :: es)).foldl
      syncOne st
    rw [List.foldl_cons, List.nil_append,
      foldl_append_acc entryCands es (entryCands e), List.foldl_append]
    rfl

/- ## `syncOne` case lemmas -/

theorem syncOne_seen {st : SyncState} {cand : Cand} (h : candKey cand ∈ st.seen) :
    syncOne st cand = st := by
  unfold syncOne
  rw [if_pos h]

theorem syncOne_not_seen_none {st : SyncState} {cn : String} {did : DocId}
    (h : candKey (cn, did, (none : Option Int)) ∉ st.seen) :
    syncOne st (cn, did, none) = { st with seen := ⟨cn, did⟩ :: st.seen } := by
  unfold syncOne
  rw [if_neg h]
  rfl

theorem syncOne_not_seen_some {st : SyncState} {cn : String} {did : DocId} {r0 : Int}
    (h : candKey (cn, did, some r0) ∉ st.seen) :
    syncOne st (cn, did, some r0) =
      { watches := fun k =>
          if k = (DocKey.mk cn did).toWatchKey
          then (procDocWatches ⟨cn, did⟩ (normRev r0)
            (st.watches (DocKey.mk cn did).toWatchKey)).1
          else st.watches k,
        syncEvents := st.syncEvents
          ++ procCollWatches ⟨cn, did⟩ (normRev r0) (st.watches (collKey cn))
          ++ (procDocWatches ⟨cn, did⟩ (normRev r0)
            (st.watches (DocKey.mk cn did).toWatchKey)).2,
        seen := ⟨cn, did⟩ :: st.seen } := by
  unfold syncOne
  rw [if_neg h]
  rfl

theorem syncOne_not_seen_seen {st : SyncState} {cand : Cand}
    (h : candKey cand ∉ st.seen) :
    (syncOne st cand).seen = candKey cand :: st.seen := by
  rcases cand with ⟨cn, did, rv⟩
  cases rv with
  | none =>
    rw [syncOne_not_seen_none h]
    rfl
  | some r0 =>
    rw [syncOne_not_seen_some h]
    rfl


/- ## The per-pass `seen` set de-duplicates candidates -/

theorem foldl_syncOne_dedup : ∀ (cands : List Cand) (st : SyncState),
    cands.foldl syncOne st = (dedupCands st.seen cands).foldl syncOne st := by
  intro cands
  induction cands with
  | nil => intro st; rfl
  | cons cand rest ih =>
    intro st
    rw [List.foldl_cons]
    by_cases h : candKey cand ∈ st.seen
    · show _ = (dedupCands st.seen (cand :: rest)).foldl syncOne st
      unfold dedupCands
      rw [if_pos h, syncOne_seen h]
      exact ih st
    · show _ = (dedupCands st.seen (cand :: rest)).foldl syncOne st
      unfold dedupCands
      rw [if_neg h, List.foldl_cons, ih (syncOne st cand), syncOne_not_seen_seen h]

theorem dedupCands_nodup : ∀ (cands : List Cand) (seen : List DocKey),
    ((dedupCands seen cands).map candKey).Nodup
      ∧ ∀ k ∈ (dedupCands seen cands).map candKey, k ∉ seen := by
  intro cands
  induction cands with
  | nil =>
    intro seen
    exact ⟨by simp [dedupCands], by simp [dedupCands]⟩
  | cons cand rest ih =>
    intro seen
    by_cases h : candKey cand ∈ seen
    · unfold dedupCands
      rw [if_pos h]
      exact ih seen
    · unfold dedupCands
      rw [if_neg h]
      obtain ⟨h1, h2⟩ := ih (candKey cand :: seen)
      refine ⟨?_, ?_⟩
      · rw [List.map_cons, List.nodup_cons]
        exact ⟨fun hmem => (h2 _ hmem) (List.mem_cons_self _ _), h1⟩
      · intro k hk
        rw [List.map_cons, List.mem_cons] at hk
        rcases hk with rfl | hk
        · exact h
        · intro hks
          exact (h2 k hk) (List.mem_cons_of_mem _ hks)

/- ## Passes observed through a single collection-wide watch -/


theorem singleCollWatch_collKey (c : String) (ch : Chan) (v : Int) :
    singleCollWatch c ch v (collKey c) = [⟨ch, v, none⟩] := by
  unfold singleCollWatch
  rw [if_pos rfl]

theorem singleCollWatch_doc (c : String) (ch : Chan) (v : Int) (K : DocKey) :
    singleCollWatch c ch v K.toWatchKey = [] := by
  unfold singleCollWatch
  rw [if_neg]
  intro hcon
  have hid : (some K.id : Option DocId) = none := by
    simpa [DocKey.toWatchKey, collKey] using congrArg WatchKey.id hcon
  exact Option.noConfusion hid

theorem procColl_single (key : DocKey) (revno : Int) (ch : Chan) (v : Int) :
    procCollWatches key revno [⟨ch, v, none⟩] = [Event.mk (some ch) key revno] :=
  rfl


/-- Folding the candidates of a pass over a registry holding a single
unfiltered collection-wide watch: the registry is untouched and the sync
queue receives exactly one event per candidate, in candidate order. -/
theorem foldl_syncOne_singleColl :
    ∀ (cands : List Cand) (st : SyncState) (c : String) (ch : Chan) (v : Int),
      (∀ k, st.watches k = singleCollWatch c ch v k) →
      (∀ cand ∈ cands, cand.1 = c ∧ cand.2.2.isSome) →
      ((cands.map candKey).Nodup) →
      (∀ cand ∈ cands, candKey cand ∉ st.seen) →
      (∀ k, (cands.foldl syncOne st).watches k = singleCollWatch c ch v k) ∧
        (cands.foldl syncOne st).syncEvents
          = st.syncEvents ++ cands.map (collEventOf ch) := by
  intro cands
  induction cands with
  | nil =>
    intro st c ch v hw _ _ _
    exact ⟨hw, by simp⟩
  | cons cand rest ih =>
    intro st c ch v hw hc hn hs
    rcases cand with ⟨cn, did, rv⟩
    obtain ⟨hcn, hrv⟩ := hc _ (List.mem_cons_self _ _)
    have hcn' : cn = c := hcn
    subst hcn'
    rcases Option.isSome_iff_exists.mp hrv with ⟨r0, rfl⟩
    have hsh : candKey (cn, did, some r0) ∉ st.seen :=
      hs _ (List.mem_cons_self _ _)
    have hdocnil : st.watches (DocKey.mk cn did).toWatchKey = [] := by
      rw [hw, singleCollWatch_doc]
    have hcoll : st.watches (collKey cn) = [⟨ch, v, none⟩] := by
      rw [hw, singleCollWatch_collKey]
    have hstep : syncOne st (cn, did, some r0) =
        { watches := fun k =>
            if k = (DocKey.mk cn did).toWatchKey then [] else st.watches k,
          syncEvents := st.syncEvents
            ++ [Event.mk (some ch) ⟨cn, did⟩ (normRev r0)],
          seen := ⟨cn, did⟩ :: st.seen } := by
      rw [syncOne_not_seen_some hsh, hdocnil, hcoll]
      simp [procColl_single, procDocWatches]
    rw [List.foldl_cons, hstep]
    obtain ⟨ihw, ihe⟩ := ih
      ({ watches := fun k =>
              if k = (DocKey.mk cn did).toWatchKey then [] else st.watches k,
         syncEvents := st.syncEvents
              ++ [Event.mk (some ch) ⟨cn, did⟩ (normRev r0)],
         seen := ⟨cn, did⟩ :: st.seen } : SyncState) cn ch v
      (by
        intro k
        dsimp only
        by_cases hk : k = (DocKey.mk cn did).toWatchKey
        · subst hk
          rw [if_pos rfl, singleCollWatch_doc]
        · rw [if_neg hk, hw])
      (fun cand hm => hc _ (List.mem_cons_of_mem _ hm))
      (by
        rw [List.map_cons, List.nodup_cons] at hn
        exact hn.2)
      (by
        intro cand' hm
        show candKey cand' ∉ ⟨cn, did⟩ :: st.seen
        rw [List.mem_cons]
        rintro (heq | hmem)
        · rw [List.map_cons, List.nodup_cons] at hn
          have hmm : (⟨cn, did⟩ : DocKey) ∈ rest.map candKey :=
            heq ▸ List.mem_map_of_mem candKey hm
          exact hn.1 hmm
        · exact hs _ (List.mem_cons_of_mem _ hm) hmem)
    refine ⟨ihw, ?_⟩
    rw [ihe]
    show st.syncEvents ++ [_] ++ _ = _
    rw [List.append_assoc]
    rfl

/- ## Document-level watches: the focused entry -/

theorem toWatchKey_inj {K1 K2 : DocKey} (h : K1.toWatchKey = K2.toWatchKey) :
    K1 = K2 := by
  cases K1; cases K2
  unfold DocKey.toWatchKey at h
  injection h with h1 h2
  injection h2 with h2
  subst h1; subst h2
  rfl

theorem collKey_ne_toWatchKey (c : String) (K : DocKey) :
    collKey c ≠ K.toWatchKey := by
  intro h
  have hid : (none : Option DocId) = some K.id := congrArg WatchKey.id h
  exact Option.noConfusion hid

theorem normRev_cases (r : Int) : normRev r = -1 ∨ 0 ≤ normRev r := by
  unfold normRev
  by_cases h : r < 0
  · left; rw [if_pos h]
  · right; rw [if_neg h]; omega



theorem eventsFor_filterMapDoc_nil (K : DocKey) (r : Int) (ch : Chan)
    (l : List WatchInfo) (hl : ∀ i ∈ l, i.ch ≠ ch) :
    eventsFor ch K (l.filterMap (fun info =>
      if condDeliver r info.revno then some (Event.mk (some info.ch) K r)
      else none)) = [] := by
  apply eventsFor_eq_nil
  intro e he
  rcases List.mem_filterMap.mp he with ⟨i, hi, hgi⟩
  right
  by_cases hci : condDeliver r i.revno
  · rw [if_pos hci] at hgi
    cases hgi
    intro hcon
    exact hl i hi (by injection hcon)
  · rw [if_neg hci] at hgi
    exact Option.noConfusion hgi

/-- One step of the event-producing `filterMap` of the per-document loop,
at the focused entry. -/
theorem filterMapDoc_cons (K : DocKey) (r v : Int) (ch : Chan)
    (f : Option (DocId → Bool)) (l : List WatchInfo) :
    List.filterMap (fun info =>
      if condDeliver r info.revno then some (Event.mk (some info.ch) K r)
      else none) (WatchInfo.mk ch v f :: l)
    = (if condDeliver r v then [Event.mk (some ch) K r] else [])
      ++ List.filterMap (fun info =>
        if condDeliver r info.revno then some (Event.mk (some info.ch) K r)
        else none) l := by
  by_cases hc : condDeliver r v
  · rw [@List.filterMap_cons_some WatchInfo Event
      (fun info => if condDeliver r info.revno
        then some (Event.mk (some info.ch) K r) else none)
      (WatchInfo.mk ch v f) l (Event.mk (some ch) K r)
      (show (if condDeliver r v then some (Event.mk (some ch) K r) else none)
        = some (Event.mk (some ch) K r) by rw [if_pos hc]), if_pos hc]
    rfl
  · rw [@List.filterMap_cons_none WatchInfo Event
      (fun info => if condDeliver r info.revno
        then some (Event.mk (some info.ch) K r) else none)
      (WatchInfo.mk ch v f) l
      (show (if condDeliver r v then some (Event.mk (some ch) K r) else none)
        = none by rw [if_neg hc]), if_neg hc]
    rfl

/-- For a candidate on exactly the watched key, the per-document loop
queues an event to the focused channel iff the delivery condition holds,
and then with exactly the candidate's revno. -/
theorem eventsFor_procDoc_focus (K : DocKey) (r v : Int) (ch : Chan)
    (f : Option (DocId → Bool)) (pre post : List WatchInfo)
    (hpre : ∀ i ∈ pre, i.ch ≠ ch) (hpost : ∀ i ∈ post, i.ch ≠ ch) :
    eventsFor ch K (procDocWatches K r (pre ++ WatchInfo.mk ch v f :: post)).2 =
      if condDeliver r v then [r] else [] := by
  rw [procDocWatches_eq]
  show eventsFor ch K ((pre ++ _ :: post).filterMap _) = _
  rw [List.filterMap_append, eventsFor_append,
    eventsFor_filterMapDoc_nil K r ch pre hpre, List.nil_append,
    filterMapDoc_cons K r v ch f post, eventsFor_append,
    eventsFor_filterMapDoc_nil K r ch post hpost, List.append_nil]
  by_cases hc : condDeliver r v
  · rw [if_pos hc, if_pos hc]
    simp [eventsFor]
  · rw [if_neg hc, if_neg hc]
    rfl

/-- For a candidate on exactly the watched key, the per-document loop
updates the focused entry's stored revno to the candidate's revno iff the
delivery condition holds, and touches no other entry's channel. -/
theorem procDoc_fst_focus (K : DocKey) (r v : Int) (ch : Chan)
    (f : Option (DocId → Bool)) (pre post : List WatchInfo)
    (hpre : ∀ i ∈ pre, i.ch ≠ ch) (hpost : ∀ i ∈ post, i.ch ≠ ch) :
    ∃ pre' post',
      (procDocWatches K r (pre ++ WatchInfo.mk ch v f :: post)).1
        = pre' ++ WatchInfo.mk ch (if condDeliver r v then r else v) f :: post'
      ∧ (∀ i ∈ pre', i.ch ≠ ch) ∧ (∀ i ∈ post', i.ch ≠ ch) := by
  rw [procDocWatches_eq]
  refine ⟨pre.map (fun info =>
      if condDeliver r info.revno then { info with revno := r } else info),
    post.map (fun info =>
      if condDeliver r info.revno then { info with revno := r } else info),
    ?_, ?_, ?_⟩
  · show (pre ++ _ :: post).map _ = _
    rw [List.map_append, List.map_cons]
    congr 2
    by_cases hc : condDeliver r v
    · rw [if_pos (show condDeliver r (WatchInfo.mk ch v f).revno from hc),
        if_pos hc]
    · rw [if_neg (show ¬ condDeliver r (WatchInfo.mk ch v f).revno from hc),
        if_neg hc]
  · intro i hi
    rcases List.mem_map.mp hi with ⟨j, hj, hji⟩
    have hch : i.ch = j.ch := by
      rw [← hji]
      by_cases hc : condDeliver r j.revno
      · rw [if_pos hc]
      · rw [if_neg hc]
    rw [hch]
    exact hpre j hj
  · intro i hi
    rcases List.mem_map.mp hi with ⟨j, hj, hji⟩
    have hch : i.ch = j.ch := by
      rw [← hji]
      by_cases hc : condDeliver r j.revno
      · rw [if_pos hc]
      · rw [if_neg hc]
    rw [hch]
    exact hpost j hj

/- ## The per-pass invariant of one focused document watch -/


theorem passInv_syncOne (K : DocKey) (ch : Chan) (v : Int) (st : SyncState)
    (cand : Cand) (h : passInv K ch v st) :
    passInv K ch v (syncOne st cand) := by
  obtain ⟨hclean, hcase⟩ := h
  by_cases hseen : candKey cand ∈ st.seen
  · rw [syncOne_seen hseen]
    exact ⟨hclean, hcase⟩
  · rcases cand with ⟨cn, did, rv⟩
    cases rv with
    | none =>
      rw [syncOne_not_seen_none hseen]
      refine ⟨hclean, ?_⟩
      rcases hcase with ⟨hsh, hev⟩ | ⟨hks, hr⟩
      · exact Or.inl ⟨hsh, hev⟩
      · exact Or.inr ⟨List.mem_cons_of_mem _ hks, hr⟩
    | some r0 =>
      rw [syncOne_not_seen_some hseen]
      have hkne : (collKey K.c) ≠ (DocKey.mk cn did).toWatchKey :=
        collKey_ne_toWatchKey K.c ⟨cn, did⟩
      refine ⟨?_, ?_⟩
      · intro i hi
        dsimp only at hi
        rw [if_neg hkne] at hi
        exact hclean i hi
      · by_cases hkey : (⟨cn, did⟩ : DocKey) = K
        · subst hkey
          rcases hcase with ⟨hsh, hev⟩ | ⟨hks, _⟩
          · obtain ⟨pre, f, post, hsplit, hpre, hpost⟩ := hsh
            have hW : (st.watches (DocKey.mk cn did).toWatchKey)
                = pre ++ WatchInfo.mk ch v f :: post := hsplit
            by_cases hcond : condDeliver (normRev r0) v
            · refine Or.inr ⟨List.mem_cons_self _ _, normRev r0,
                normRev_cases r0, hcond, ?_, ?_⟩
              · obtain ⟨pre', post', hsplit', hpre', hpost'⟩ :=
                  procDoc_fst_focus ⟨cn, did⟩ (normRev r0) v ch f pre post
                    hpre hpost
                refine ⟨pre', f, post', ?_, hpre', hpost'⟩
                dsimp only
                rw [if_pos rfl, hW, hsplit', if_pos hcond]
              · dsimp only
                rw [eventsFor_append, eventsFor_append, hev,
                  eventsFor_procColl_nil (Or.inr hclean),
                  hW, eventsFor_procDoc_focus ⟨cn, did⟩ (normRev r0) v ch f
                    pre post hpre hpost, if_pos hcond]
                rfl
            · refine Or.inl ⟨?_, ?_⟩
              · obtain ⟨pre', post', hsplit', hpre', hpost'⟩ :=
                  procDoc_fst_focus ⟨cn, did⟩ (normRev r0) v ch f pre post
                    hpre hpost
                refine ⟨pre', f, post', ?_, hpre', hpost'⟩
                dsimp only
                rw [if_pos rfl, hW, hsplit', if_neg hcond]
              · dsimp only
                rw [eventsFor_append, eventsFor_append, hev,
                  eventsFor_procColl_nil (Or.inr hclean),
                  hW, eventsFor_procDoc_focus ⟨cn, did⟩ (normRev r0) v ch f
                    pre post hpre hpost, if_neg hcond]
                rfl
          · exact absurd hks hseen
        · have hdocne : K.toWatchKey ≠ (DocKey.mk cn did).toWatchKey := by
            intro hcon
            exact hkey (toWatchKey_inj hcon).symm
          rcases hcase with ⟨hsh, hev⟩ | ⟨hks, r, hnr, hcond, hsh, hev⟩
          · refine Or.inl ⟨?_, ?_⟩
            · obtain ⟨pre, f, post, hsplit, hpre, hpost⟩ := hsh
              refine ⟨pre, f, post, ?_, hpre, hpost⟩
              dsimp only
              rw [if_neg hdocne]
              exact hsplit
            · dsimp only
              rw [eventsFor_append, eventsFor_append, hev,
                eventsFor_procColl_nil (Or.inl hkey),
                eventsFor_procDoc_nil (Or.inl hkey)]
              rfl
          · refine Or.inr ⟨List.mem_cons_of_mem _ hks, r, hnr, hcond, ?_, ?_⟩
            · obtain ⟨pre, f, post, hsplit, hpre, hpost⟩ := hsh
              refine ⟨pre, f, post, ?_, hpre, hpost⟩
              dsimp only
              rw [if_neg hdocne]
              exact hsplit
            · dsimp only
              rw [eventsFor_append, eventsFor_append, hev,
                eventsFor_procColl_nil (Or.inl hkey),
                eventsFor_procDoc_nil (Or.inl hkey)]
              rfl

theorem passInv_foldl (K : DocKey) (ch : Chan) (v : Int) :
    ∀ (cands : List Cand) (st : SyncState), passInv K ch v st →
      passInv K ch v (cands.foldl syncOne st) := by
  intro cands
  induction cands with
  | nil => intro st h; exact h
  | cons cand rest ih =>
    intro st h
    rw [List.foldl_cons]
    exact ih _ (passInv_syncOne K ch v st cand h)

/-- One sync-and-flush pass, as seen by one focused document watch: the
watch either receives nothing (its stored revno unchanged) or exactly one
event, whose revno is normalized, satisfies the delivery condition
against the stored revno, and becomes the new stored revno. -/
theorem runPass_docWatch (w : Registry) (entries : List LogEntry) (K : DocKey)
    (ch : Chan) (v : Int) (hsh : docEntryShape w K ch v)
    (hclean : collClean w K.c ch) :
    ∃ v', docEntryShape (runPass w entries).1 K ch v'
      ∧ collClean (runPass w entries).1 K.c ch
      ∧ ((v' = v ∧ deliveredFor ch K (runPass w entries).2 = [])
        ∨ ((v' = -1 ∨ 0 ≤ v') ∧ condDeliver v' v
            ∧ deliveredFor ch K (runPass w entries).2 = [v'])) := by
  have h0 : passInv K ch v ⟨w, [], []⟩ := ⟨hclean, Or.inl ⟨hsh, rfl⟩⟩
  have h1 := passInv_foldl K ch v (candList entries) ⟨w, [], []⟩ h0
  rw [← syncPass_eq] at h1
  obtain ⟨hc1, hcase⟩ := h1
  rcases hcase with ⟨hsh1, hev1⟩ | ⟨_, r, hnr, hcond, hsh1, hev1⟩
  · refine ⟨v, hsh1, hc1, Or.inl ⟨rfl, ?_⟩⟩
    show deliveredFor ch K (flushSends _) = []
    rw [deliveredFor_flushSends, hev1]
    rfl
  · refine ⟨r, hsh1, hc1, Or.inr ⟨hnr, hcond, ?_⟩⟩
    show deliveredFor ch K (flushSends _) = [r]
    rw [deliveredFor_flushSends, hev1]
    rfl

/-- Across any sequence of passes, the revnos delivered to a focused
document watch form a chain starting at the registered revno: each
delivered revno strictly exceeds the previous one, except that `-1` may
follow a non-negative one. -/
theorem runPasses_chain (K : DocKey) (ch : Chan) :
    ∀ (passes : List (List LogEntry)) (w : Registry) (v : Int),
      docEntryShape w K ch v → collClean w K.c ch →
      List.Chain (fun a b => a < b ∨ (b = -1 ∧ 0 ≤ a)) v
          (deliveredFor ch K (runPasses w passes))
        ∧ ∀ x ∈ deliveredFor ch K (runPasses w passes), x = -1 ∨ 0 ≤ x := by
  intro passes
  induction passes with
  | nil =>
    intro w v hsh hclean
    exact ⟨List.Chain.nil, by intro x hx; cases hx⟩
  | cons p ps ih =>
    intro w v hsh hclean
    obtain ⟨v', hsh', hclean', hcase⟩ := runPass_docWatch w p K ch v hsh hclean
    rw [show runPasses w (p :: ps)
        = (runPass w p).2 ++ runPasses (runPass w p).1 ps from rfl,
      deliveredFor_append]
    obtain ⟨ihc, ihn⟩ := ih (runPass w p).1 v' hsh' hclean'
    rcases hcase with ⟨hv, hdel⟩ | ⟨hnr, hcond, hdel⟩
    · rw [hdel, List.nil_append]
      subst hv
      exact ⟨ihc, ihn⟩
    · rw [hdel]
      refine ⟨?_, ?_⟩
      · show List.Chain _ v (v' :: _)
        rw [List.chain_cons]
        refine ⟨?_, ihc⟩
        rcases hcond with hlt | ⟨hneg, hge⟩
        · exact Or.inl hlt
        · refine Or.inr ⟨?_, hge⟩
          rcases hnr with h1 | h2
          · exact h1
          · omega
      · intro x hx
        rcases List.mem_cons.mp hx with rfl | hx
        · exact hnr
        · exact ihn x hx

/- ## Request handler facts -/

theorem multiFold_mono (collection : String) (ch : Chan) :
    ∀ (ids : List DocId) (w : Registry) (k : WatchKey),
      ∃ t, (ids.foldl (fun acc id =>
          fun k' => if k' = ⟨collection, some id⟩
            then acc ⟨collection, some id⟩ ++ [⟨ch, -2, none⟩]
            else acc k') w) k
        = w k ++ t := by
  intro ids
  induction ids with
  | nil =>
    intro w k
    exact ⟨[], by simp⟩
  | cons id rest ih =>
    intro w k
    rw [List.foldl_cons]
    obtain ⟨t, ht⟩ := ih (fun k' => if k' = ⟨collection, some id⟩
      then w ⟨collection, some id⟩ ++ [⟨ch, -2, none⟩] else w k') k
    rw [ht]
    by_cases hk : k = (⟨collection, some id⟩ : WatchKey)
    · subst hk
      rw [if_pos rfl]
      exact ⟨[⟨ch, -2, none⟩] ++ t, by rw [List.append_assoc]⟩
    · rw [if_neg hk]
      exact ⟨t, rfl⟩

theorem multiFold_mem (collection : String) (ch : Chan) :
    ∀ (ids : List DocId) (w : Registry) (id : DocId), id ∈ ids →
      WatchInfo.mk ch (-2) none ∈ (ids.foldl (fun acc id' =>
          fun k' => if k' = ⟨collection, some id'⟩
            then acc ⟨collection, some id'⟩ ++ [⟨ch, -2, none⟩]
            else acc k') w) ⟨collection, some id⟩ := by
  intro ids
  induction ids with
  | nil =>
    intro w id h
    cases h
  | cons id0 rest ih =>
    intro w id h
    rw [List.foldl_cons]
    rcases List.mem_cons.mp h with rfl | h
    · obtain ⟨t, ht⟩ := multiFold_mono collection ch rest
        (fun k' => if k' = ⟨collection, some id⟩
          then w ⟨collection, some id⟩ ++ [⟨ch, -2, none⟩] else w k')
        ⟨collection, some id⟩
      rw [ht]
      rw [if_pos rfl]
      exact List.mem_append_left _
        (List.mem_append_right _ (List.mem_singleton.mpr rfl))
    · exact ih _ id h

theorem multiFold_unchanged (collection : String) (ch : Chan) :
    ∀ (ids : List DocId) (w : Registry) (k : WatchKey),
      (∀ id ∈ ids, k ≠ ⟨collection, some id⟩) →
      (ids.foldl (fun acc id' =>
          fun k' => if k' = ⟨collection, some id'⟩
            then acc ⟨collection, some id'⟩ ++ [⟨ch, -2, none⟩]
            else acc k') w) k
        = w k := by
  intro ids
  induction ids with
  | nil =>
    intro w k _
    rfl
  | cons id0 rest ih =>
    intro w k h
    rw [List.foldl_cons]
    rw [ih _ k (fun id hm => h id (List.mem_cons_of_mem _ hm))]
    rw [if_neg (h id0 (List.mem_cons_self _ _))]

theorem purge_send_not_match (key : WatchKey) (ch : Chan) (evs : List Event)
    {e : Event} (he : e ∈ purgeEvents key ch evs) {s : Chan × Change}
    (hs : sendOf e = some s) (hch : s.1 = ch) :
    watchKeyMatch key ⟨s.2.C, s.2.Id⟩ = false := by
  rcases List.mem_map.mp he with ⟨e0, he0, heq⟩
  by_cases hm : watchKeyMatch key e0.key ∧ e0.ch = some ch
  · rw [if_pos hm] at heq
    rw [← heq] at hs
    exact absurd hs (by simp [sendOf])
  · rw [if_neg hm] at heq
    rw [← heq] at hs
    rcases e0 with ⟨ec, ⟨ekc, ekid⟩, er⟩
    cases ec with
    | none => exact absurd hs (by simp [sendOf])
    | some c =>
      have hs' : s = (c, ⟨ekc, ekid, er⟩) := by
        simpa [sendOf] using hs.symm
      subst hs'
      have hc : c = ch := hch
      subst hc
      show watchKeyMatch key ⟨ekc, ekid⟩ = false
      cases hw : watchKeyMatch key ⟨ekc, ekid⟩
      · rfl
      · exact absurd ⟨hw, rfl⟩ hm

theorem purge_flush_clean (stw : Registry) (key : WatchKey) (ch : Chan)
    (sync req : List Event) :
    ∀ s ∈ flushSends ⟨stw, purgeEvents key ch sync, purgeEvents key ch req⟩,
      s.1 = ch → watchKeyMatch key ⟨s.2.C, s.2.Id⟩ = false := by
  intro s hs hch
  rw [flushSends_eq] at hs
  rcases List.mem_append.mp hs with hs | hs
  · rcases List.mem_filterMap.mp hs with ⟨e, he, hse⟩
    exact purge_send_not_match key ch sync (List.mem_reverse.mp he) hse hch
  · rcases List.mem_filterMap.mp hs with ⟨e, he, hse⟩
    exact purge_send_not_match key ch req he hse hch

theorem mem_purge (key : WatchKey) (ch : Chan) (evs : List Event) :
    ∀ e ∈ purgeEvents key ch evs, watchKeyMatch key e.key → e.ch ≠ some ch := by
  intro e he hm
  rcases List.mem_map.mp he with ⟨e0, he0, heq⟩
  by_cases hp : watchKeyMatch key e0.key ∧ e0.ch = some ch
  · rw [if_pos hp] at heq
    rw [← heq]
    simp
  · rw [if_neg hp] at heq
    rw [← heq] at hm ⊢
    intro hc
    exact hp ⟨hm, hc⟩

/- ## Concrete fixtures -/







theorem wDoc_docKey : wDoc (⟨"m", some 0⟩ : WatchKey) = [⟨0, -2, none⟩] := by
  unfold wDoc
  rw [if_pos rfl]

theorem wDoc_collKey : wDoc (collKey "m") = [] := by
  unfold wDoc collKey
  rw [if_neg]
  intro h
  exact Option.noConfusion (congrArg WatchKey.id h)

/- ## `sendsTo` facts -/

theorem sendsTo_reverse (ch : Chan) (l : List (Chan × Change)) :
    sendsTo ch l.reverse = (sendsTo ch l).reverse := by
  unfold sendsTo
  exact List.filterMap_reverse _ _

theorem sendsTo_cons_hit (ch : Chan) (chg : Change) (l : List (Chan × Change)) :
    sendsTo ch ((ch, chg) :: l) = chg :: sendsTo ch l := by
  unfold sendsTo
  rw [@List.filterMap_cons_some (Chan × Change) Change
    (fun s => if s.1 = ch then some s.2 else none) (ch, chg) l chg
    (by simp)]

theorem sendOf_collEventOf (ch : Chan) (cand : Cand) :
    sendOf (collEventOf ch cand)
      = some (ch, Change.mk cand.1 cand.2.1 (normRev (cand.2.2.getD 0))) :=
  rfl

theorem sendsTo_collEvents (ch : Chan) :
    ∀ cands : List Cand,
      sendsTo ch (List.filterMap sendOf (cands.map (collEventOf ch)))
        = cands.map (fun cand =>
            Change.mk cand.1 cand.2.1 (normRev (cand.2.2.getD 0))) := by
  intro cands
  induction cands with
  | nil => rfl
  | cons cand rest ih =>
    rw [List.map_cons, List.map_cons,
      List.filterMap_cons_some (sendOf_collEventOf ch cand),
      sendsTo_cons_hit, ih]

/- ## Counting entries added by `reqWatchMulti`'s second loop -/

theorem multiFold_count (collection : String) (ch : Chan) :
    ∀ (ids : List DocId) (w : Registry) (id : DocId),
      ((ids.foldl (fun acc id' =>
          fun k' => if k' = ⟨collection, some id'⟩
            then acc ⟨collection, some id'⟩ ++ [⟨ch, -2, none⟩]
            else acc k') w) ⟨collection, some id⟩).countP (fun i => i.ch == ch)
        = (w ⟨collection, some id⟩).countP (fun i => i.ch == ch)
          + ids.count id := by
  intro ids
  induction ids with
  | nil =>
    intro w id
    simp
  | cons id0 rest ih =>
    intro w id
    rw [List.foldl_cons, ih]
    by_cases hk : id = id0
    · subst hk
      rw [if_pos rfl, List.countP_append]
      have hc : [(⟨ch, -2, none⟩ : WatchInfo)].countP (fun i => i.ch == ch)
          = 1 := by
        simp [List.countP_cons]
      rw [hc, List.count_cons_self]
      omega
    · have hne : (⟨collection, some id⟩ : WatchKey)
          ≠ ⟨collection, some id0⟩ := by
        intro hcon
        apply hk
        have := congrArg WatchKey.id hcon
        injection this
      rw [if_neg hne, List.count_cons_of_ne hk]

/- ## The claims -/

/-- C2: during a sync pass, for each candidate change with normalized
revno, every entry registered on the exact (collection, id) key is sent a
pending event and has its `lastDeliveredRevno` updated to `revno` if and
only if `revno > lastDeliveredRevno` or `revno < 0 ∧ lastDeliveredRevno ≥ 0`;
in particular a document watch observing revno 3 then −5 (then −7)
delivers exactly `Change{...,3}` then `Change{...,-1}` and nothing for the
later negative revno. -/
theorem c2_doc_delivery_condition :
    (∀ (key : DocKey) (revno : Int) (infos : List WatchInfo),
      procDocWatches key revno infos
        = (infos.map (fun info =>
            if condDeliver revno info.revno
            then ⟨info.ch, revno, info.filter⟩ else info),
          infos.filterMap (fun info =>
            if condDeliver revno info.revno
            then some (Event.mk (some info.ch) key revno) else none)))
    ∧ deliveredFor 0 K0 (runPasses wDoc delPasses) = [3, -1] := by
  constructor
  · intro key revno infos
    rw [procDocWatches_eq]
  · decide

/-- C4: within a single sync pass each (collection, id) pair contributes
at most one candidate change: the pass equals the pass over the
`seen`-deduplicated candidate stream, whose keys are pairwise distinct;
and each delta batch is walked from its last row to its first, so within
one entry the last row of a duplicated id wins (rows `[3, 7]` for the
same id produce the single event with revno `7`). -/
theorem c4_at_most_one_per_pass :
    (∀ (entries : List LogEntry) (w : Registry),
      syncPass ⟨w, [], []⟩ entries
        = (dedupCands [] (candList entries)).foldl syncOne ⟨w, [], []⟩)
    ∧ (∀ (seen : List DocKey) (cands : List Cand),
        ((dedupCands seen cands).map candKey).Nodup)
    ∧ batchCands ⟨"m", [5, 5], [some 3, some 7]⟩
        = [("m", 5, some 7), ("m", 5, some 3)]
    ∧ (runPass (singleCollWatch "m" 1 0) [[⟨"m", [5, 5], [some 3, some 7]⟩]]).2
        = [(1, ⟨"m", 5, 7⟩)] := by
  refine ⟨?_, ?_, ?_, ?_⟩
  · intro entries w
    rw [syncPass_eq]
    exact foldl_syncOne_dedup (candList entries) ⟨w, [], []⟩
  · intro seen cands
    exact (dedupCands_nodup cands seen).1
  · decide
  · decide

/-- C8: a per-collection delta batch whose id and revno sequences have
unequal lengths is skipped — it changes nothing in the pass state and
produces no events — and processing continues with the remaining batches
of the entry (the sync pass, a total function here, never fails on it). -/
theorem c8_malformed_batch_skipped (st : SyncState) (b : DeltaBatch)
    (h : b.d.length ≠ b.r.length) :
    syncBatch st b = st
      ∧ ∀ (bs1 bs2 : List DeltaBatch),
        syncEntry st (bs1 ++ b :: bs2) = syncEntry st (bs1 ++ bs2) := by
  have hskip : ∀ st' : SyncState, syncBatch st' b = st' := by
    intro st'
    unfold syncBatch
    rw [if_pos (Or.inr h)]
  refine ⟨hskip st, ?_⟩
  intro bs1 bs2
  show (bs1 ++ b :: bs2).foldl syncBatch st = (bs1 ++ bs2).foldl syncBatch st
  rw [List.foldl_append, List.foldl_append, List.foldl_cons, hskip]

/-- C8 witness: a batch with two ids and one revno is skipped. -/
theorem c8_witness :
    syncBatch ⟨fun _ => [], [], []⟩ ⟨"m", [1, 2], [some 5]⟩
        = ⟨fun _ => [], [], []⟩
      ∧ ∀ (bs1 bs2 : List DeltaBatch),
        syncEntry ⟨fun _ => [], [], []⟩ (bs1 ++ ⟨"m", [1, 2], [some 5]⟩ :: bs2)
          = syncEntry ⟨fun _ => [], [], []⟩ (bs1 ++ bs2) :=
  c8_malformed_batch_skipped ⟨fun _ => [], [], []⟩ ⟨"m", [1, 2], [some 5]⟩
    (by decide)

/-- C9: when the change-log iterator close reports a query error with
code 136 or a message containing `CappedPositionLost`, the watcher loop
exits with the distinguished restart-the-whole-agent cause; any other
close failure exits with a generic iteration error, and a clean close
produces no error. -/
theorem c9_position_lost :
    (∀ (code : Nat) (msg : String),
      loopExitOfClose (IterCloseResult.queryError code msg)
        = some (if code = 136 ∨ strContainsSub msg "CappedPositionLost"
            then WatcherExit.errRestartAgent
            else WatcherExit.iterationError msg))
    ∧ (∀ msg : String, loopExitOfClose (IterCloseResult.otherError msg)
        = some (WatcherExit.iterationError msg))
    ∧ loopExitOfClose IterCloseResult.ok = none := by
  refine ⟨?_, fun msg => rfl, rfl⟩
  intro code msg
  show Option.map loopExitOfSyncErr
      (if code = 136 ∨ strContainsSub msg "CappedPositionLost"
        then some SyncErr.cappedPositionLost
        else some (SyncErr.iterErr msg))
    = some (if code = 136 ∨ strContainsSub msg "CappedPositionLost"
        then WatcherExit.errRestartAgent
        else WatcherExit.iterationError msg)
  by_cases h : code = 136 ∨ strContainsSub msg "CappedPositionLost"
  · rw [if_pos h, if_pos h]
    rfl
  · rw [if_neg h, if_neg h]
    rfl

/-- C3: during a sync pass, a collection-wide entry is sent an event for
a candidate iff it has no filter or its filter accepts the id; the
decision never consults the entry's `lastDeliveredRevno` (rewriting every
stored revno changes nothing); and with no filter, N distinct document
changes in one pass produce exactly N events for the entry. -/
theorem c3_collection_filter :
    (∀ (key : DocKey) (revno : Int) (infos : List WatchInfo),
      procCollWatches key revno infos
        = infos.filterMap (fun info =>
            match info.filter with
            | some f => if f key.id
                then some (Event.mk (some info.ch) key revno) else none
            | none => some (Event.mk (some info.ch) key revno)))
    ∧ (∀ (key : DocKey) (revno : Int) (infos : List WatchInfo)
        (g : WatchInfo → Int),
      procCollWatches key revno (infos.map (fun i => ⟨i.ch, g i, i.filter⟩))
        = procCollWatches key revno infos)
    ∧ (∀ (c : String) (ch : Chan) (v : Int) (entries : List LogEntry),
      (∀ cand ∈ candList entries, cand.1 = c ∧ cand.2.2.isSome) →
      ((candList entries).map candKey).Nodup →
      (syncPass ⟨singleCollWatch c ch v, [], []⟩ entries).syncEvents.length
        = (candList entries).length) := by
  refine ⟨?_, ?_, ?_⟩
  · intro key revno infos
    exact procCollWatches_eq key revno infos
  · intro key revno infos g
    rw [procCollWatches_eq, procCollWatches_eq, List.filterMap_map]
    congr 1
  · intro c ch v entries hc hn
    obtain ⟨_, he⟩ := foldl_syncOne_singleColl (candList entries)
      ⟨singleCollWatch c ch v, [], []⟩ c ch v (fun k => rfl) hc hn
      (fun cand _ hm => List.not_mem_nil _ hm)
    rw [syncPass_eq, he]
    simp

/-- C3 witness: two distinct document changes in one pass produce two
events for an unfiltered collection-wide watch. -/
theorem c3_witness :
    (syncPass ⟨singleCollWatch "k" 3 0, [], []⟩
        [[⟨"k", [1, 2], [some 4, some 9]⟩]]).syncEvents.length
      = (candList [[⟨"k", [1, 2], [some 4, some 9]⟩]]).length :=
  c3_collection_filter.2.2 "k" 3 0 [[⟨"k", [1, 2], [some 4, some 9]⟩]]
    (by decide) (by decide)

/-- C7: a flush sends the sync queue from its last index to its first
followed by the request queue in order; consequently, for a subscriber
watching a collection, the changes of a pass (whose sync queue was
appended newest-log-entry-first) arrive in oldest-change-first
chronological order, i.e. reversed relative to candidate processing
order. -/
theorem c7_flush_order :
    (∀ st : WatcherState,
      flushSends st
        = (st.syncEvents.reverse).filterMap sendOf
          ++ st.requestEvents.filterMap sendOf)
    ∧ (∀ (c : String) (ch : Chan) (v : Int) (entries : List LogEntry),
      (∀ cand ∈ candList entries, cand.1 = c ∧ cand.2.2.isSome) →
      ((candList entries).map candKey).Nodup →
      sendsTo ch (runPass (singleCollWatch c ch v) entries).2
        = ((candList entries).map (fun cand =>
            Change.mk cand.1 cand.2.1 (normRev (cand.2.2.getD 0)))).reverse) := by
  constructor
  · exact flushSends_eq
  · intro c ch v entries hc hn
    obtain ⟨_, he⟩ := foldl_syncOne_singleColl (candList entries)
      ⟨singleCollWatch c ch v, [], []⟩ c ch v (fun k => rfl) hc hn
      (fun cand _ hm => List.not_mem_nil _ hm)
    show sendsTo ch (flushSends _) = _
    rw [flushSends_eq]
    show sendsTo ch
      (((syncPass ⟨singleCollWatch c ch v, [], []⟩ entries).syncEvents).reverse.filterMap
        sendOf ++ List.filterMap sendOf []) = _
    rw [syncPass_eq, he, List.nil_append, List.filterMap_nil, List.append_nil,
      List.filterMap_reverse, sendsTo_reverse, sendsTo_collEvents]

/-- C7 witness: one pass over two changes, delivered in reverse candidate
order. -/
theorem c7_witness :
    sendsTo 3 (runPass (singleCollWatch "k" 3 0)
        [[⟨"k", [1, 2], [some 4, some 9]⟩]]).2
      = ((candList [[⟨"k", [1, 2], [some 4, some 9]⟩]]).map (fun cand =>
          Change.mk cand.1 cand.2.1 (normRev (cand.2.2.getD 0)))).reverse :=
  c7_flush_order.2 "k" 3 0 [[⟨"k", [1, 2], [some 4, some 9]⟩]]
    (by decide) (by decide)

/-- C5: `reqWatchMulti` is atomic: if the channel is already registered
against any of the ids, the handler reports the error and the registry is
unchanged at every key; otherwise it reports success, registers the
channel (revno `-2`, no filter) against every id, and leaves all other
keys unchanged. -/
theorem c5_watchmulti_atomic (w : Registry) (collection : String)
    (ids : List DocId) (ch : Chan) :
    ((∃ id ∈ ids, ∃ i ∈ w ⟨collection, some id⟩, i.ch = ch) →
      (reqWatchMultiHandle w collection ids ch).2
          = some "tried to re-add channel"
        ∧ ∀ k, (reqWatchMultiHandle w collection ids ch).1 k = w k)
    ∧ ((∀ id ∈ ids, ∀ i ∈ w ⟨collection, some id⟩, i.ch ≠ ch) →
      (reqWatchMultiHandle w collection ids ch).2 = none
        ∧ (∀ id ∈ ids, WatchInfo.mk ch (-2) none
            ∈ (reqWatchMultiHandle w collection ids ch).1 ⟨collection, some id⟩)
        ∧ (∀ k, (∀ id ∈ ids, k ≠ ⟨collection, some id⟩) →
            (reqWatchMultiHandle w collection ids ch).1 k = w k)) := by
  constructor
  · intro hdup
    have hany : (ids.any (fun id => (w ⟨collection, some id⟩).any
        (fun info => info.ch = ch))) = true := by
      rw [List.any_eq_true]
      obtain ⟨id, hid, i, hi, hich⟩ := hdup
      refine ⟨id, hid, ?_⟩
      rw [List.any_eq_true]
      exact ⟨i, hi, by simp [hich]⟩
    unfold reqWatchMultiHandle
    rw [if_pos hany]
    exact ⟨rfl, fun k => rfl⟩
  · intro hno
    have hany : (ids.any (fun id => (w ⟨collection, some id⟩).any
        (fun info => info.ch = ch))) = false := by
      rw [List.any_eq_false]
      intro id hid
      rw [Bool.not_eq_true, List.any_eq_false]
      intro i hi
      simp [hno id hid i hi]
    unfold reqWatchMultiHandle
    rw [if_neg (by rw [hany]; exact Bool.false_ne_true)]
    refine ⟨rfl, ?_, ?_⟩
    · intro id hid
      exact multiFold_mem collection ch ids w id hid
    · intro k hk
      exact multiFold_unchanged collection ch ids w k hk

/-- C5 witness: a second `WatchMulti` for the same channel with an id set
overlapping the first fails entirely and leaves the registry unchanged at
every key. -/
theorem c5_witness :
    (reqWatchMultiHandle w1 "c" [1, 2] 5).2 = some "tried to re-add channel"
      ∧ ∀ k, (reqWatchMultiHandle w1 "c" [1, 2] 5).1 k = w1 k :=
  (c5_watchmulti_atomic w1 "c" [1, 2] 5).1
    ⟨1, by decide, ⟨5, -2, none⟩, by
      have h : w1 (⟨"c", some 1⟩ : WatchKey) = [⟨5, -2, none⟩] := rfl
      rw [h]
      exact List.mem_singleton.mpr rfl, rfl⟩

/-- C6: after an `Unwatch`/`UnwatchCollection` request for (key, channel)
has been applied, the already-queued pending events matching that pair
are purged from both queues, so a subsequent flush sends nothing for the
pair. -/
theorem c6_unwatch_purges (st : WatcherState) (key : WatchKey) (ch : Chan)
    (st' : WatcherState) (h : reqUnwatchHandle st key ch = some st') :
    (∀ s ∈ flushSends st', s.1 = ch →
        watchKeyMatch key ⟨s.2.C, s.2.Id⟩ = false)
    ∧ (∀ e ∈ st'.syncEvents ++ st'.requestEvents,
        watchKeyMatch key e.key → e.ch ≠ some ch) := by
  unfold reqUnwatchHandle at h
  cases hsw : swapRemove ch (st.watches key) with
  | none =>
    rw [hsw] at h
    cases h
  | some infos =>
    rw [hsw] at h
    injection h with h
    subst h
    constructor
    · exact purge_flush_clean _ key ch st.syncEvents st.requestEvents
    · intro e he hm
      rcases List.mem_append.mp he with he | he
      · exact mem_purge key ch st.syncEvents e he hm
      · exact mem_purge key ch st.requestEvents e he hm

/-- C6 witness: unwatching a document watch whose event is queued purges
that event; the flush delivers only the other channel's event. -/
theorem c6_witness :
    ∃ st', reqUnwatchHandle ⟨wDoc, [⟨some 0, K0, 3⟩, ⟨some 1, K0, 3⟩], []⟩
        (⟨"m", some 0⟩ : WatchKey) 0 = some st'
      ∧ ((∀ s ∈ flushSends st', s.1 = 0 →
            watchKeyMatch ⟨"m", some 0⟩ ⟨s.2.C, s.2.Id⟩ = false)
        ∧ (∀ e ∈ st'.syncEvents ++ st'.requestEvents,
            watchKeyMatch ⟨"m", some 0⟩ e.key → e.ch ≠ some 0)) := by
  refine ⟨_, rfl, c6_unwatch_purges
    ⟨wDoc, [⟨some 0, K0, 3⟩, ⟨some 1, K0, 3⟩], []⟩ ⟨"m", some 0⟩ 0 _ rfl⟩

/-- C10: calling `WatchMulti` with the same id twice in `ids` (channel
not yet registered for it) succeeds and appends two entries for the same
(key, channel) pair — the duplicate check only inspects pre-existing
registry entries — while `reqWatch` enforces the at-most-one invariant by
panicking on a duplicate. -/
theorem c10_watchmulti_duplicate_ids (w : Registry) (collection : String)
    (x : DocId) (ch : Chan)
    (h : ∀ i ∈ w ⟨collection, some x⟩, i.ch ≠ ch) :
    ((reqWatchMultiHandle w collection [x, x] ch).2 = none
      ∧ ((reqWatchMultiHandle w collection [x, x] ch).1
          ⟨collection, some x⟩).countP (fun i => i.ch == ch) = 2)
    ∧ ∀ (w' : Registry) (key : WatchKey) (info : WatchInfo),
        (∃ i ∈ w' key, i.ch = info.ch) →
        reqWatchHandle w' key info = (w', some "tried to re-add channel") := by
  constructor
  · have hany : ([x, x].any (fun id => (w ⟨collection, some id⟩).any
        (fun info => info.ch = ch))) = false := by
      rw [List.any_eq_false]
      intro id hid
      rw [Bool.not_eq_true, List.any_eq_false]
      intro i hi
      have hid' : id = x := by
        rcases List.mem_cons.mp hid with rfl | hid2
        · rfl
        · rcases List.mem_cons.mp hid2 with rfl | hid3
          · rfl
          · cases hid3
      subst hid'
      simp [h i hi]
    unfold reqWatchMultiHandle
    rw [if_neg (by rw [hany]; exact Bool.false_ne_true)]
    refine ⟨rfl, ?_⟩
    show (([x, x].foldl (fun acc id' =>
        fun k' => if k' = ⟨collection, some id'⟩
          then acc ⟨collection, some id'⟩ ++ [⟨ch, -2, none⟩]
          else acc k') w) ⟨collection, some x⟩).countP (fun i => i.ch == ch) = 2
    rw [multiFold_count collection ch [x, x] w x]
    have hz : (w ⟨collection, some x⟩).countP (fun i => i.ch == ch) = 0 := by
      rw [List.countP_eq_zero]
      intro i hi
      simp [h i hi]
    rw [hz]
    simp
  · intro w' key info hex
    have hany : ((w' key).any (fun i => i.ch = info.ch)) = true := by
      rw [List.any_eq_true]
      obtain ⟨i, hi, hich⟩ := hex
      exact ⟨i, hi, by simp [hich]⟩
    unfold reqWatchHandle
    rw [if_pos hany]

/-- C10 witness: `WatchMulti` on `ids = [0, 0]` yields two entries for
the same (key, channel) pair; `reqWatch` rejects a duplicate channel. -/
theorem c10_witness :
    ((reqWatchMultiHandle (fun _ => []) "c" [0, 0] 7).2 = none
      ∧ ((reqWatchMultiHandle (fun _ => []) "c" [0, 0] 7).1
          ⟨"c", some 0⟩).countP (fun i => i.ch == 7) = 2)
    ∧ reqWatchHandle (fun _ => [⟨7, -2, none⟩]) ⟨"c", some 0⟩ ⟨7, 5, none⟩
        = ((fun _ => [⟨7, -2, none⟩]), some "tried to re-add channel") := by
  have h := c10_watchmulti_duplicate_ids (fun _ => []) "c" 0 7
    (fun i hi => absurd hi (List.not_mem_nil i))
  exact ⟨h.1, h.2 (fun _ => [⟨7, -2, none⟩]) ⟨"c", some 0⟩ ⟨7, 5, none⟩
    ⟨⟨7, -2, none⟩, List.mem_singleton.mpr rfl, rfl⟩⟩

/-- C1 counterexample: a document watch that observes revno 3, then a
deletion (revno −5, delivered as −1), then a recreation with revno 2
receives the sequence `[3, -1, 2]`: an event *does* follow the delivered
`-1` without any re-registration, contradicting the claimed discipline. -/
theorem c1_counterexample :
    deliveredFor 0 K0 (runPasses wDoc cexPasses) = [3, -1, 2]
      ∧ ¬ specC1Monotone [3, -1, 2] := by
  constructor
  · decide
  · intro hspec
    have h1 := hspec.2 ⟨1, by decide⟩ (by decide)
    exact absurd h1 (by decide)

/-- C1 (amended): for a document-level watch registered via `Watch`
(stored revno −2) on key K with channel ch (ch not also registered
collection-wide on K's collection), every delivered revno is −1 or
non-negative, and each delivered revno is strictly greater than the
previously delivered one (−2 before any delivery), except that −1 may be
delivered when the previous state is non-negative; in particular no −1
immediately follows a −1, but events may follow a delivered −1 (document
recreation) without re-registration. -/
theorem c1_monotonic_delivery_amended (w : Registry) (K : DocKey) (ch : Chan)
    (passes : List (List LogEntry))
    (hsh : docEntryShape w K ch (-2)) (hclean : collClean w K.c ch) :
    List.Chain (fun a b => a < b ∨ (b = -1 ∧ 0 ≤ a)) (-2)
        (deliveredFor ch K (runPasses w passes))
      ∧ ∀ x ∈ deliveredFor ch K (runPasses w passes), x = -1 ∨ 0 ≤ x :=
  runPasses_chain K ch passes w (-2) hsh hclean

/-- C1 witness: the amended discipline holds on the recreation scenario
that refutes the original claim. -/
theorem c1_witness :
    List.Chain (fun a b => a < b ∨ (b = -1 ∧ 0 ≤ a)) (-2)
        (deliveredFor 0 K0 (runPasses wDoc cexPasses))
      ∧ ∀ x ∈ deliveredFor 0 K0 (runPasses wDoc cexPasses),
          x = -1 ∨ 0 ≤ x :=
  c1_monotonic_delivery_amended wDoc K0 0 cexPasses
    ⟨[], none, [], by rw [List.nil_append]; exact wDoc_docKey,
      fun i hi => absurd hi (List.not_mem_nil i),
      fun i hi => absurd hi (List.not_mem_nil i)⟩
    (by
      intro i hi
      rw [show wDoc (collKey K0.c) = [] from wDoc_collKey] at hi
      exact absurd hi (List.not_mem_nil i))
end JujuWatcher
